import Mathlib

/-!
Verification of the core logic of `sysReview.py` (systematic-review bot).

The Python code manipulates nested dict-or-string trees ("review trees"),
Python `str` values, and Python `set`-based sentence deduplication.  The
shallow embedding below models:

  * Python `str` as Lean `String` (a wrapper around `List Char`); the
    character-level helpers operate on `String.data`.
  * the dict-or-string tree as the inductive type `Node`
    (`Node.str` = Python `str` leaf, `Node.dict` = Python `dict`,
    an ordered association list, as Python dicts preserve insertion order).
  * `str.split('. ')` as `splitPS` (split at every occurrence of the
    two-character separator; the separator cannot overlap itself, so
    Python's leftmost-first scanning splits at exactly every occurrence).
  * `'. '.join` / `' '.join` as `joinWith`.
  * `set(...)` followed by joining as `List.dedup` followed by joining:
    CPython's set iteration order is unspecified (hash-based), so the
    embedding fixes one deterministic linearization of the set.
  * raising exceptions as `Option`/`Except` failure values.
-/

/-- A Python dict-or-string tree: every node of the section schema, of a
per-document review and of the aggregated review is either a string or a
dict (an ordered mapping from string keys to child nodes). -/
inductive Node where
  | str : String → Node
  | dict : List (String × Node) → Node

/-- Python dict lookup `d.get(k)` on an ordered association list: the value at the first
matching key, if any (Python dicts have unique keys, so first = only). -/
def nodeGet : List (String × Node) → String → Option Node
  | [], _ => none
  | kv :: rest, k => if kv.1 = k then some kv.2 else nodeGet rest k

/-- Tail of a separator join: `joinRest sep [w1, w2] = sep ++ w1 ++ sep ++ w2`. -/
def joinRest (sep : List Char) : List (List Char) → List Char
  | [] => []
  | w :: ws => sep ++ w ++ joinRest sep ws

/-- Python `sep.join(parts)` on character lists. -/
def joinWith (sep : List Char) : List (List Char) → List Char
  | [] => []
  | w :: ws => w ++ joinRest sep ws

/-- Auxiliary for Python `s.split('. ')`: returns the part before the
first separator occurrence together with the remaining parts.  Processes
the characters right to left; since the separator `". "` cannot overlap
itself, splitting at every occurrence agrees with Python's leftmost
non-overlapping scan. -/
def splitPSA : List Char → List Char × List (List Char)
  | [] => ([], [])
  | c :: rest =>
    let r := splitPSA rest
    match r.1 with
    | c2 :: p => if c = '.' ∧ c2 = ' ' then ([], p :: r.2) else (c :: r.1, r.2)
    | [] => (c :: r.1, r.2)

/-- Python `s.split('. ')` on character lists (always a nonempty list of
parts; `"".split('. ') == [""]`). -/
def splitPS (s : List Char) : List (List Char) :=
  (splitPSA s).1 :: (splitPSA s).2

/-- Does the list start with a space? -/
def startsSpace : List Char → Bool
  | [] => false
  | c :: _ => c == ' '

/-- Does the character list contain the separator `". "` as a substring? -/
def hasSep : List Char → Bool
  | [] => false
  | c :: rest => (c == '.' && startsSpace rest) || hasSep rest

/-- Function `remove_repeated_sentences` from the source: split the summary on the
exact delimiter `". "`, deduplicate the parts as a set, and rejoin with
`". "`.  Python's set iteration order is unspecified; the embedding fixes
the deterministic order of `List.dedup`. -/
def remove_repeated_sentences (summary : String) : String :=
  ⟨joinWith ['.', ' '] ((splitPS summary.data).dedup)⟩

/-- Python whitespace test used by no-argument `str.split()` (ASCII
whitespace; the Unicode whitespace characters behave identically with
respect to the split and do not affect the claims). -/
def isPyWs (c : Char) : Bool :=
  c == ' ' || c == '\t' || c == '\n' || c == '\x0b' || c == '\x0c' || c == '\r'

/-- Auxiliary for no-argument `str.split()`: the leading run of
non-whitespace characters, and the words of the remainder. -/
def pyWordsA : List Char → List Char × List (List Char)
  | [] => ([], [])
  | c :: rest =>
    let r := pyWordsA rest
    if isPyWs c then
      ([], if r.1 = [] then r.2 else r.1 :: r.2)
    else
      (c :: r.1, r.2)

/-- Python no-argument `str.split()`: split on runs of whitespace,
discarding empty words (hence also leading/trailing whitespace). -/
def pyWords (s : List Char) : List (List Char) :=
  if (pyWordsA s).1 = [] then (pyWordsA s).2 else (pyWordsA s).1 :: (pyWordsA s).2

/-- Function `clean_text` from the source: `" ".join(text.split())` — collapse all
whitespace runs to single spaces and strip the ends. -/
def clean_text (text : String) : String :=
  ⟨joinWith [' '] (pyWords text.data)⟩

/-- Function `summarize_text` from the source, parametrized by the black-box
summarization pipeline `model` (input string, `max_length`, `min_length` ↦
either the extracted `summary_text` or the message of a raised exception).
The source wraps any exception in a `RuntimeError` (the spec's
`SummarizationError`) whose message prefixes `"Summarization failed: "`. -/
def summarize_text (model : String → Nat → Nat → Except String String)
    (text prompt : String) (max_length min_length : Nat) : Except String String :=
  match model (prompt ++ "\n" ++ text) max_length min_length with
  | Except.ok s => Except.ok s
  | Except.error e => Except.error ("Summarization failed: " ++ e)

mutual

/-- Python `str(node)` as interpolated by the f-string
`f"{prompt}\n{text}"`: a string formats as itself, a dict formats as its
`repr` (`\x7b'key': repr(value), ...\x7d`).  Quote-escaping inside the
repr is not modelled; no key or value in this development contains a
quote. -/
def pyStrOf : Node → String
  | Node.str s => s
  | Node.dict es => "\x7b" ++ pyReprEntries es ++ "\x7d"

/-- Python `repr(node)` for a value appearing inside a dict repr. -/
def pyReprOf : Node → String
  | Node.str s => "\x27" ++ s ++ "\x27"
  | Node.dict es => "\x7b" ++ pyReprEntries es ++ "\x7d"

/-- The comma-separated `'key': repr(value)` entries of a dict repr. -/
def pyReprEntries : List (String × Node) → String
  | [] => ""
  | [(k, v)] => "\x27" ++ k ++ "\x27: " ++ pyReprOf v
  | (k, v) :: kv :: rest =>
      "\x27" ++ k ++ "\x27: " ++ pyReprOf v ++ ", " ++ pyReprEntries (kv :: rest)

end

/-- The fixed `sections` literal defined inside `structured_summary` in the
source: the Section Schema (dict-of-dicts with prompt strings at the
leaves, nested to 3 levels). -/
def sections : List (String × Node) :=
  [("A: Abstract",
    Node.str "Provide a concise and clear summary of the document\x27s key focus and purpose."),
   ("B: Methods", Node.dict
     [("1. Research Question",
       Node.str "What is the primary research question explicitly stated in the document?"),
      ("2. Search Strategy",
       Node.str "Summarize the methods used to identify and select studies, such as databases searched and keywords."),
      ("3. Inclusion and Exclusion Criteria", Node.dict
        [("Inclusion",
          Node.str "List the specific criteria used to include studies in this review."),
         ("Exclusion",
          Node.str "List the specific criteria used to exclude studies from this review.")]),
      ("5. Data Extraction",
       Node.str "Describe the process and tools used for extracting data in this research."),
      ("6. Data Synthesis",
       Node.str "Explain the approach and methods used to synthesize the data extracted.")]),
   ("D: Results",
    Node.str "Summarize the primary findings and results of this review.")]

/-- The innermost loop of `structured_summary`: at the third level the
source calls `summarize_text(text, nested_prompt)` with no isinstance
check, so a dict value at this level is stringified into the prompt
instead of being recursed into.  `st text prompt` stands for
`summarize_text(text, prompt)` under the assumption that every call
returns (rather than raising). -/
def walkNested (st : String → String → String) (text : String) :
    List (String × Node) → List (String × Node)
  | [] => []
  | (n, np) :: rest => (n, Node.str (st text (pyStrOf np))) :: walkNested st text rest

/-- The middle loop of `structured_summary`: one isinstance check, then
either the innermost loop or a direct summarization. -/
def walkSub (st : String → String → String) (text : String) :
    List (String × Node) → List (String × Node)
  | [] => []
  | (sub, subPrompt) :: rest =>
    (match subPrompt with
     | Node.dict nested => (sub, Node.dict (walkNested st text nested))
     | Node.str p => (sub, Node.str (st text p))) :: walkSub st text rest

/-- The outer loop of `structured_summary`. -/
def walkTop (st : String → String → String) (text : String) :
    List (String × Node) → List (String × Node)
  | [] => []
  | (sec, prompt) :: rest =>
    (match prompt with
     | Node.dict subs => (sec, Node.dict (walkSub st text subs))
     | Node.str p => (sec, Node.str (st text p))) :: walkTop st text rest

/-- Function `structured_summary` from the source: walk the fixed `sections` schema
and replace every leaf prompt with its generated summary.  `st` models the
summarizer under the assumption that every per-leaf call returns a string
(the source would otherwise let the exception propagate). -/
def structured_summary (st : String → String → String) (text : String) : Node :=
  Node.dict (walkTop st text sections)

mutual

/-- All node paths (key sequences from the root) present in a tree, the
root's empty path included. -/
def pathsOf : Node → List (List String)
  | Node.str _ => [[]]
  | Node.dict es => [] :: pathsOfList es

def pathsOfList : List (String × Node) → List (List String)
  | [] => []
  | (k, v) :: rest => (pathsOf v).map (fun p => k :: p) ++ pathsOfList rest

end

mutual

/-- The paths of the string leaves of a tree (so `pathsOf` minus
`leafPathsOf` are exactly the dict/branch paths). -/
def leafPathsOf : Node → List (List String)
  | Node.str _ => [[]]
  | Node.dict es => leafPathsOfList es

def leafPathsOfList : List (String × Node) → List (List String)
  | [] => []
  | (k, v) :: rest => (leafPathsOf v).map (fun p => k :: p) ++ leafPathsOfList rest

end

mutual

/-- Nesting depth of a tree: strings have depth 0, a dict is one deeper
than its deepest value.  The fixed `sections` schema has depth 3. -/
def depthNode : Node → Nat
  | Node.str _ => 0
  | Node.dict es => 1 + depthList es

def depthList : List (String × Node) → Nat
  | [] => 0
  | (_, v) :: rest => max (depthNode v) (depthList rest)

end

mutual

/-- Replace every string leaf of a tree by its image under `f`, at any
depth (the idealized arbitrary-depth walker used to state what a
depth-generic `structured_summary` would produce). -/
def mapLeaves (f : String → String) : Node → Node
  | Node.str s => Node.str (f s)
  | Node.dict es => Node.dict (mapLeavesList f es)

def mapLeavesList (f : String → String) : List (String × Node) → List (String × Node)
  | [] => []
  | (k, v) :: rest => (k, mapLeaves f v) :: mapLeavesList f rest

end

/-- The mutable `aggregated` accumulator built at the top of
`aggregate_reviews`: one list per schema leaf, in the source literal's
order (`abstract` = "A: Abstract", `rq` = "1. Research Question",
`ss` = "2. Search Strategy", `inclusion`/`exclusion` = the two leaves of
"3. Inclusion and Exclusion Criteria", `de` = "5. Data Extraction",
`ds` = "6. Data Synthesis", `results` = "D: Results").  The lists hold
`Node`s because Python `list.append` accepts any value; a non-string
element only fails later, at the `" ".join` step. -/
structure Agg where
  abstract : List Node
  rq : List Node
  ss : List Node
  inclusion : List Node
  exclusion : List Node
  de : List Node
  ds : List Node
  results : List Node

/-- The accumulator literal: every list empty. -/
def initAgg : Agg := ⟨[], [], [], [], [], [], [], []⟩

/-- Python statement `aggregated["A: Abstract"].append(v)`. -/
def pushAbstract (a : Agg) (v : Node) : Agg :=
  ⟨a.abstract ++ [v], a.rq, a.ss, a.inclusion, a.exclusion, a.de, a.ds, a.results⟩

/-- Python statement `aggregated["D: Results"].append(v)`. -/
def pushResults (a : Agg) (v : Node) : Agg :=
  ⟨a.abstract, a.rq, a.ss, a.inclusion, a.exclusion, a.de, a.ds, a.results ++ [v]⟩

/-- The two appends of the `"3. Inclusion and Exclusion Criteria"` branch. -/
def pushIE (a : Agg) (i e : Node) : Agg :=
  ⟨a.abstract, a.rq, a.ss, a.inclusion ++ [i], a.exclusion ++ [e], a.de, a.ds, a.results⟩

/-- Python statement `aggregated["B: Methods"][key].append(v)` — a dict lookup with the
review's own key: any key other than the four list-valued ones raises a
`KeyError` (modelled as `none`). -/
def bAppendField (a : Agg) (key : String) (v : Node) : Option Agg :=
  if key = "1. Research Question" then
    some ⟨a.abstract, a.rq ++ [v], a.ss, a.inclusion, a.exclusion, a.de, a.ds, a.results⟩
  else if key = "2. Search Strategy" then
    some ⟨a.abstract, a.rq, a.ss ++ [v], a.inclusion, a.exclusion, a.de, a.ds, a.results⟩
  else if key = "5. Data Extraction" then
    some ⟨a.abstract, a.rq, a.ss, a.inclusion, a.exclusion, a.de ++ [v], a.ds, a.results⟩
  else if key = "6. Data Synthesis" then
    some ⟨a.abstract, a.rq, a.ss, a.inclusion, a.exclusion, a.de, a.ds ++ [v], a.results⟩
  else
    none

/-- One iteration of the `for key, sub_section in review.get("B: Methods",
\x7b\x7d).items()` loop: the `"3. Inclusion and Exclusion Criteria"` key is
special-cased (its value must be a dict, read with tolerant `.get`,
defaulting to `""`); every other key goes through the dynamic lookup
`aggregated["B: Methods"][key]`.  `.get` on a string value raises
(`none`). -/
def stepB (a : Agg) (kv : String × Node) : Option Agg :=
  if kv.1 = "3. Inclusion and Exclusion Criteria" then
    match kv.2 with
    | Node.dict cs =>
        some (pushIE a ((nodeGet cs "Inclusion").getD (Node.str ""))
                       ((nodeGet cs "Exclusion").getD (Node.str "")))
    | Node.str _ => none
  else
    bAppendField a kv.1 kv.2

/-- The whole `B: Methods` loop over one review's entries. -/
def foldB (a : Agg) : List (String × Node) → Option Agg
  | [] => some a
  | kv :: rest =>
    match stepB a kv with
    | none => none
    | some a2 => foldB a2 rest

/-- The body of the `for review in reviews` loop: append the tolerant
lookups of "A: Abstract" and "D: Results" and run the `B: Methods` loop.
A review that is not a dict, or whose "B: Methods" value is not a dict,
raises (`none`). -/
def addReview (a : Agg) (review : Node) : Option Agg :=
  match review with
  | Node.str _ => none
  | Node.dict es =>
    let a1 := pushAbstract a ((nodeGet es "A: Abstract").getD (Node.str ""))
    match (nodeGet es "B: Methods").getD (Node.dict []) with
    | Node.str _ => none
    | Node.dict bs =>
      match foldB a1 bs with
      | none => none
      | some a2 => some (pushResults a2 ((nodeGet es "D: Results").getD (Node.str "")))

/-- The `for review in reviews` loop. -/
def addAll (a : Agg) : List Node → Option Agg
  | [] => some a
  | r :: rest =>
    match addReview a r with
    | none => none
    | some a2 => addAll a2 rest

/-- Check that every accumulated element is a string (Python `" ".join`
raises a `TypeError` on any non-string element). -/
def allStrings : List Node → Option (List String)
  | [] => some []
  | Node.str s :: rest => (allStrings rest).map (fun ss => s :: ss)
  | Node.dict _ :: _ => none

/-- Python `" ".join(strings)`. -/
def joinSpace (ss : List String) : String :=
  ⟨joinWith [' '] (ss.map String.data)⟩

/-- The second phase of `aggregate_reviews` at one leaf:
`remove_repeated_sentences(" ".join(collected))`. -/
def finishLeaf (l : List Node) : Option String :=
  (allStrings l).map (fun ss => remove_repeated_sentences (joinSpace ss))

/-- The shape shared by `structured_summary`'s output and the `aggregated`
literal of `aggregate_reviews`: the Section Schema's tree with the eight
leaf strings given. -/
def mkReview (a rq ss inc exc de ds res : String) : Node :=
  Node.dict
    [("A: Abstract", Node.str a),
     ("B: Methods", Node.dict
       [("1. Research Question", Node.str rq),
        ("2. Search Strategy", Node.str ss),
        ("3. Inclusion and Exclusion Criteria", Node.dict
          [("Inclusion", Node.str inc), ("Exclusion", Node.str exc)]),
        ("5. Data Extraction", Node.str de),
        ("6. Data Synthesis", Node.str ds)]),
     ("D: Results", Node.str res)]

/-- Function `aggregate_reviews` from the source: collect each schema leaf's values
from every review (first phase), then join each collection with single
spaces and deduplicate sentences (second phase).  A raised exception
anywhere is `none`. -/
def aggregate_reviews (reviews : List Node) : Option Node :=
  match addAll initAgg reviews with
  | none => none
  | some acc =>
    match finishLeaf acc.abstract, finishLeaf acc.rq, finishLeaf acc.ss,
          finishLeaf acc.inclusion, finishLeaf acc.exclusion,
          finishLeaf acc.de, finishLeaf acc.ds, finishLeaf acc.results with
    | some a, some rq, some ss, some inc, some exc, some de, some ds, some res =>
        some (mkReview a rq ss inc exc de ds res)
    | _, _, _, _, _, _, _, _ => none

/-- The node reached by following a key path from the root. -/
def nodeAt : Node → List String → Option Node
  | n, [] => some n
  | Node.str _, _ :: _ => none
  | Node.dict es, k :: rest =>
    match nodeGet es k with
    | some v => nodeAt v rest
    | none => none

/-- The string leaf at a key path of an optional tree (used to observe
concrete aggregation results). -/
def optLeafAt (t : Option Node) (p : List String) : Option String :=
  match t with
  | none => none
  | some n =>
    match nodeAt n p with
    | some (Node.str s) => some s
    | _ => none

/-- A depth-4 schema used to probe the walker beyond the hardcoded three
levels: one branch at each of the first three levels and a leaf prompt at
level 4. -/
def deepSections : List (String × Node) :=
  [("S", Node.dict [("T", Node.dict [("U", Node.dict [("V", Node.str "p")])])])]

/-- A concrete summarizer used in witnesses. -/
def stW : String → String → String := fun text prompt => prompt ++ " || " ++ text

/-- A black-box model that always returns. -/
def modelOk : String → Nat → Nat → Except String String := fun _ _ _ => Except.ok "S"

/-- A black-box model that always raises. -/
def modelErr : String → Nat → Nat → Except String String := fun _ _ _ => Except.error "boom"

/-- Is the node a string leaf? -/
def isStr : Node → Bool
  | Node.str _ => true
  | Node.dict _ => false

/-- Validity of one entry of a partial "3. Inclusion and Exclusion
Criteria" dict: a key of the schema with a string value. -/
def okCritEntry (kv : String × Node) : Bool :=
  (kv.1 == "Inclusion" || kv.1 == "Exclusion") && isStr kv.2

/-- Validity of one entry of a partial "B: Methods" dict: a key of the
schema, with a string value at the four flat leaves and a partial criteria
dict at the nested branch. -/
def okBEntry (kv : String × Node) : Bool :=
  ((kv.1 == "1. Research Question" || kv.1 == "2. Search Strategy" ||
    kv.1 == "5. Data Extraction" || kv.1 == "6. Data Synthesis") && isStr kv.2)
  || (kv.1 == "3. Inclusion and Exclusion Criteria" &&
      (match kv.2 with
       | Node.dict cs => cs.all okCritEntry
       | Node.str _ => false))

/-- Validity of one top-level entry of a partial review: a key of the
schema with a value of the schema shape (itself possibly missing
entries). -/
def okTopEntry (kv : String × Node) : Bool :=
  ((kv.1 == "A: Abstract" || kv.1 == "D: Results") && isStr kv.2)
  || (kv.1 == "B: Methods" &&
      (match kv.2 with
       | Node.dict bs => bs.all okBEntry
       | Node.str _ => false))

/-- A partial review: a tree shaped like the Section Schema from which any
branches or leaves may be missing (every present node is well-typed, no
key outside the schema). -/
def PartialReview : Node → Bool
  | Node.str _ => false
  | Node.dict es => es.all okTopEntry

/-- Are all accumulated nodes string leaves? -/
def allStr : List Node → Bool
  | [] => true
  | Node.str _ :: rest => allStr rest
  | Node.dict _ :: _ => false

/-- Invariant of the aggregation accumulator: every collected contribution
is a string. -/
def StrAcc (a : Agg) : Bool :=
  allStr a.abstract && allStr a.rq && allStr a.ss && allStr a.inclusion &&
  allStr a.exclusion && allStr a.de && allStr a.ds && allStr a.results

/-- A review tree lacking the "1. Research Question" leaf of the Section
Schema (everything else present and empty). -/
def reviewMissingRQ : Node :=
  Node.dict
    [("A: Abstract", Node.str ""),
     ("B: Methods", Node.dict
       [("2. Search Strategy", Node.str ""),
        ("3. Inclusion and Exclusion Criteria", Node.dict
          [("Inclusion", Node.str ""), ("Exclusion", Node.str "")]),
        ("5. Data Extraction", Node.str ""),
        ("6. Data Synthesis", Node.str "")]),
     ("D: Results", Node.str "")]

theorem splitPSA_noSep (s : List Char) :
    hasSep (splitPSA s).1 = false ∧ ∀ p ∈ (splitPSA s).2, hasSep p = false := by
  induction s with
  | nil => simp [splitPSA, hasSep]
  | cons c rest ih =>
    obtain ⟨ih1, ih2⟩ := ih
    rcases hr : splitPSA rest with ⟨r1, rs⟩
    rw [hr] at ih1 ih2
    cases r1 with
    | nil =>
      simp only [splitPSA, hr]
      constructor
      · simp [hasSep, startsSpace, ih1]
      · exact ih2
    | cons c2 p =>
      by_cases hc : c = '.' ∧ c2 = ' '
      · simp only [splitPSA, hr, if_pos hc]
        refine ⟨by simp [hasSep], ?_⟩
        intro q hq
        rcases List.mem_cons.mp hq with hq | hq
        · subst hq
          simp [hasSep] at ih1
          exact ih1.2
        · exact ih2 q hq
      · simp only [splitPSA, hr, if_neg hc]
        constructor
        · simp [hasSep, startsSpace] at ih1 ⊢
          refine ⟨?_, ih1⟩
          intro hcdot
          rcases ih1 with ⟨h1, _⟩
          intro hc2
          exact hc ⟨hcdot, hc2⟩
        · exact ih2

theorem splitPSA_of_noSep {x : List Char} (h : hasSep x = false) : splitPSA x = (x, []) := by
  induction x with
  | nil => rfl
  | cons c rest ih =>
    simp only [hasSep, Bool.or_eq_false_iff, Bool.and_eq_false_iff] at h
    obtain ⟨h1, h2⟩ := h
    rw [splitPSA]
    simp only [ih h2]
    cases rest with
    | nil => rfl
    | cons c2 t =>
      have : ¬ (c = '.' ∧ c2 = ' ') := by
        rintro ⟨hc, hc2⟩
        rcases h1 with h1 | h1
        · simp [hc] at h1
        · simp [startsSpace, hc2] at h1
      simp [this]

theorem splitPSA_append_sep {x : List Char} (t : List Char) (h : hasSep x = false) :
    splitPSA (x ++ '.' :: ' ' :: t) = (x, (splitPSA t).1 :: (splitPSA t).2) := by
  induction x with
  | nil =>
    rw [List.nil_append, splitPSA]
    rcases ht : splitPSA t with ⟨t1, ts⟩
    rw [splitPSA]
    simp only [ht]
    cases t1 with
    | nil => simp
    | cons a u =>
      by_cases ha : ' ' = '.' ∧ a = ' '
      · exact absurd ha.1 (by decide)
      · simp [ha]
  | cons c rest ih =>
    simp only [hasSep, Bool.or_eq_false_iff, Bool.and_eq_false_iff] at h
    obtain ⟨h1, h2⟩ := h
    rw [List.cons_append, splitPSA]
    simp only [ih h2]
    cases rest with
    | nil =>
      simp only [List.nil_append]
    | cons c2 u =>
      have : ¬ (c = '.' ∧ c2 = ' ') := by
        rintro ⟨hc, hc2⟩
        rcases h1 with h1 | h1
        · simp [hc] at h1
        · simp [startsSpace, hc2] at h1
      simp [this]

theorem splitPS_joinWith {xs : List (List Char)} (hne : xs ≠ [])
    (h : ∀ p ∈ xs, hasSep p = false) : splitPS (joinWith ['.', ' '] xs) = xs := by
  induction xs with
  | nil => exact absurd rfl hne
  | cons x rest ih =>
    cases rest with
    | nil =>
      have hx : hasSep x = false := h x (by simp)
      simp [joinWith, joinRest, splitPS, splitPSA_of_noSep hx]
    | cons y ys =>
      have hx : hasSep x = false := h x (by simp)
      have hjoin : joinWith ['.', ' '] (x :: y :: ys)
          = x ++ '.' :: ' ' :: joinWith ['.', ' '] (y :: ys) := by
        simp [joinWith, joinRest]
      rw [hjoin, splitPS, splitPSA_append_sep _ hx]
      have := ih (by simp) (fun p hp => h p (List.mem_cons_of_mem _ hp))
      rw [splitPS] at this
      simp [this]

/-- Claim C7: the sentence deduplicator is idempotent — deduplicating an
already deduplicated string changes nothing. -/
theorem remove_repeated_sentences_idem (s : String) :
    remove_repeated_sentences (remove_repeated_sentences s)
      = remove_repeated_sentences s := by
  unfold remove_repeated_sentences
  have hdata : (String.mk (joinWith ['.', ' '] ((splitPS s.data).dedup))).data
      = joinWith ['.', ' '] ((splitPS s.data).dedup) := rfl
  rw [hdata]
  have hne : (splitPS s.data).dedup ≠ [] := by
    rw [Ne, List.dedup_eq_nil, splitPS]
    simp
  have hparts : ∀ p ∈ (splitPS s.data).dedup, hasSep p = false := by
    intro p hp
    have hp' : p ∈ splitPS s.data := List.mem_dedup.mp hp
    rw [splitPS] at hp'
    rcases List.mem_cons.mp hp' with h | h
    · subst h; exact (splitPSA_noSep s.data).1
    · exact (splitPSA_noSep s.data).2 p h
  rw [splitPS_joinWith hne hparts, List.Nodup.dedup (List.nodup_dedup _)]

theorem pyWordsA_noWs (s : List Char) :
    (∀ c ∈ (pyWordsA s).1, isPyWs c = false) ∧
    (∀ w ∈ (pyWordsA s).2, w ≠ [] ∧ ∀ c ∈ w, isPyWs c = false) := by
  induction s with
  | nil => simp [pyWordsA]
  | cons c rest ih =>
    obtain ⟨ih1, ih2⟩ := ih
    rcases hr : pyWordsA rest with ⟨r1, rs⟩
    rw [hr] at ih1 ih2
    by_cases hc : isPyWs c = true
    · simp only [pyWordsA, hr, if_pos hc]
      refine ⟨by simp, ?_⟩
      by_cases h1 : r1 = []
      · simp only [h1, if_pos rfl]
        exact ih2
      · simp only [if_neg h1]
        intro w hw
        rcases List.mem_cons.mp hw with hw | hw
        · subst hw; exact ⟨h1, ih1⟩
        · exact ih2 w hw
    · rw [Bool.not_eq_true] at hc
      simp only [pyWordsA, hr, hc, Bool.false_eq_true, if_false]
      refine ⟨?_, ih2⟩
      intro d hd
      rcases List.mem_cons.mp hd with hd | hd
      · subst hd; exact hc
      · exact ih1 d hd

theorem pyWordsA_of_noWs {w : List Char} (h : ∀ c ∈ w, isPyWs c = false) (t : List Char) :
    pyWordsA (w ++ t) = (w ++ (pyWordsA t).1, (pyWordsA t).2) := by
  induction w with
  | nil => simp
  | cons c w' ih =>
    have hc : isPyWs c = false := h c (by simp)
    have hw' : ∀ c ∈ w', isPyWs c = false := fun d hd => h d (List.mem_cons_of_mem _ hd)
    rw [List.cons_append, pyWordsA, ih hw']
    simp [hc]

theorem pyWordsA_joinRest {ws : List (List Char)}
    (h : ∀ w ∈ ws, w ≠ [] ∧ ∀ c ∈ w, isPyWs c = false) :
    pyWordsA (joinRest [' '] ws) = ([], ws) := by
  induction ws with
  | nil => rfl
  | cons w ws' ih =>
    obtain ⟨hne, hnw⟩ := h w (by simp)
    have hrest : ∀ v ∈ ws', v ≠ [] ∧ ∀ c ∈ v, isPyWs c = false :=
      fun v hv => h v (List.mem_cons_of_mem _ hv)
    have hjr : joinRest [' '] (w :: ws') = ' ' :: (w ++ joinRest [' '] ws') := by
      simp [joinRest]
    rw [hjr, pyWordsA]
    simp only [pyWordsA_of_noWs hnw, ih hrest, List.append_nil]
    simp [isPyWs, hne]

theorem pyWords_joinWith {ws : List (List Char)}
    (h : ∀ w ∈ ws, w ≠ [] ∧ ∀ c ∈ w, isPyWs c = false) :
    pyWords (joinWith [' '] ws) = ws := by
  cases ws with
  | nil => rfl
  | cons w ws' =>
    obtain ⟨hne, hnw⟩ := h w (by simp)
    have hrest : ∀ v ∈ ws', v ≠ [] ∧ ∀ c ∈ v, isPyWs c = false :=
      fun v hv => h v (List.mem_cons_of_mem _ hv)
    rw [joinWith, pyWords]
    simp only [pyWordsA_of_noWs hnw, pyWordsA_joinRest hrest, List.append_nil]
    simp [hne]

theorem pyWords_words (s : List Char) :
    ∀ w ∈ pyWords s, w ≠ [] ∧ ∀ c ∈ w, isPyWs c = false := by
  obtain ⟨h1, h2⟩ := pyWordsA_noWs s
  intro w hw
  rw [pyWords] at hw
  by_cases hfst : (pyWordsA s).1 = []
  · rw [if_pos hfst] at hw
    exact h2 w hw
  · rw [if_neg hfst] at hw
    rcases List.mem_cons.mp hw with hw | hw
    · subst hw; exact ⟨hfst, h1⟩
    · exact h2 w hw

/-- Claim C9: the text normalizer is idempotent — normalizing
already-normalized text passes it through unchanged. -/
theorem clean_text_idem (s : String) : clean_text (clean_text s) = clean_text s := by
  unfold clean_text
  have hdata : (String.mk (joinWith [' '] (pyWords s.data))).data
      = joinWith [' '] (pyWords s.data) := rfl
  rw [hdata, pyWords_joinWith (pyWords_words s.data)]

theorem depthList_bound {l : List (String × Node)} {kv : String × Node} (h : kv ∈ l) :
    depthNode kv.2 ≤ depthList l := by
  induction l with
  | nil => cases h
  | cons hd tl ih =>
    rcases List.mem_cons.mp h with h | h
    · subst h
      rw [depthList]
      exact le_max_left _ _
    · rw [depthList]
      exact le_trans (ih h) (le_max_right _ _)

theorem depth_zero_str {v : Node} (h : depthNode v = 0) : ∃ s, v = Node.str s := by
  cases v with
  | str s => exact ⟨s, rfl⟩
  | dict es => rw [depthNode] at h; omega

theorem walkNested_eq (st : String → String → String) (text : String)
    {nested : List (String × Node)} (h : ∀ kv ∈ nested, depthNode kv.2 = 0) :
    walkNested st text nested = mapLeavesList (st text) nested := by
  induction nested with
  | nil => rfl
  | cons kv rest ih =>
    obtain ⟨n, np⟩ := kv
    obtain ⟨p, hp⟩ := depth_zero_str (h (n, np) (by simp))
    subst hp
    rw [walkNested, mapLeavesList, ih (fun kv hkv => h kv (List.mem_cons_of_mem _ hkv))]
    rfl

theorem walkSub_eq (st : String → String → String) (text : String)
    {subs : List (String × Node)} (h : ∀ kv ∈ subs, depthNode kv.2 ≤ 1) :
    walkSub st text subs = mapLeavesList (st text) subs := by
  induction subs with
  | nil => rfl
  | cons kv rest ih =>
    obtain ⟨sub, sp⟩ := kv
    have ihr := ih (fun kv hkv => h kv (List.mem_cons_of_mem _ hkv))
    cases sp with
    | str p => rw [walkSub, mapLeavesList, ihr]; rfl
    | dict nested =>
      rw [walkSub, mapLeavesList, ihr]
      have hd : depthNode (Node.dict nested) ≤ 1 := h (sub, Node.dict nested) (by simp)
      rw [depthNode] at hd
      have hz : ∀ kv ∈ nested, depthNode kv.2 = 0 := by
        intro kv hkv
        have := depthList_bound hkv
        omega
      rw [walkNested_eq st text hz]
      rfl

theorem walkTop_eq (st : String → String → String) (text : String)
    {entries : List (String × Node)} (h : ∀ kv ∈ entries, depthNode kv.2 ≤ 2) :
    walkTop st text entries = mapLeavesList (st text) entries := by
  induction entries with
  | nil => rfl
  | cons kv rest ih =>
    obtain ⟨sec, prompt⟩ := kv
    have ihr := ih (fun kv hkv => h kv (List.mem_cons_of_mem _ hkv))
    cases prompt with
    | str p => rw [walkTop, mapLeavesList, ihr]; rfl
    | dict subs =>
      rw [walkTop, mapLeavesList, ihr]
      have hd : depthNode (Node.dict subs) ≤ 2 := h (sec, Node.dict subs) (by simp)
      rw [depthNode] at hd
      have hone : ∀ kv ∈ subs, depthNode kv.2 ≤ 1 := by
        intro kv hkv
        have := depthList_bound hkv
        omega
      rw [walkSub_eq st text hone]
      rfl

/-- Claim C2 (amended): the schema walker of `structured_summary` handles
nesting only up to 3 levels (the depth of the fixed schema): for every
schema dict of depth at most 3, and any summarizer, it produces the
same-shaped tree with every leaf prompt replaced by its summary. -/
theorem walker_handles_depth_le_three (st : String → String → String) (text : String)
    (entries : List (String × Node)) (h : depthNode (Node.dict entries) ≤ 3) :
    Node.dict (walkTop st text entries) = mapLeaves (st text) (Node.dict entries) := by
  rw [depthNode] at h
  have htwo : ∀ kv ∈ entries, depthNode kv.2 ≤ 2 := by
    intro kv hkv
    have := depthList_bound hkv
    omega
  rw [walkTop_eq st text htwo, mapLeaves]

/-- Claim C2 witness: the amended theorem applied to the fixed `sections`
schema, whose depth bound holds by computation. -/
theorem walker_handles_depth_le_three_witness :
    Node.dict (walkTop stW "t" sections) = mapLeaves (stW "t") (Node.dict sections) :=
  walker_handles_depth_le_three stW "t" sections (by decide)

/-- Claim C2 counterexample: on a depth-4 schema the walker does not
recurse into the fourth level.  The output path set differs from the
schema path set, and the level-3 branch node becomes a string leaf holding
the summary of the stringified dict. -/
theorem walker_depth4_cex :
    pathsOf (Node.dict (walkTop (fun _ p => p) "" deepSections)) ≠ pathsOf (Node.dict deepSections)
    ∧ optLeafAt (some (Node.dict (walkTop (fun _ p => p) "" deepSections))) ["S", "T", "U"]
        = some "\x7b\x27V\x27: \x27p\x27\x7d" := by
  constructor
  · decide
  · decide

theorem joinSpace_single (a : String) : joinSpace [a] = a := by
  simp [joinSpace, joinWith, joinRest]

theorem agg_two (a b c d e f g h a' b' c' d' e' f' g' h' : String) :
    aggregate_reviews [mkReview a b c d e f g h, mkReview a' b' c' d' e' f' g' h']
      = some (mkReview (remove_repeated_sentences (joinSpace [a, a']))
          (remove_repeated_sentences (joinSpace [b, b']))
          (remove_repeated_sentences (joinSpace [c, c']))
          (remove_repeated_sentences (joinSpace [d, d']))
          (remove_repeated_sentences (joinSpace [e, e']))
          (remove_repeated_sentences (joinSpace [f, f']))
          (remove_repeated_sentences (joinSpace [g, g']))
          (remove_repeated_sentences (joinSpace [h, h']))) := rfl

/-- Claim C1 counterexample: with every leaf of A equal to "a" and every
leaf of B equal to "b", `aggregate_reviews [A, B]` holds "a b" at the
"A: Abstract" leaf while `aggregate_reviews [B, A]` holds "b a", so the two
aggregated trees are not equal. -/
theorem aggregate_order_dependent_cex :
    optLeafAt (aggregate_reviews [mkReview "a" "a" "a" "a" "a" "a" "a" "a",
                                  mkReview "b" "b" "b" "b" "b" "b" "b" "b"]) ["A: Abstract"]
      = some "a b" ∧
    optLeafAt (aggregate_reviews [mkReview "b" "b" "b" "b" "b" "b" "b" "b",
                                  mkReview "a" "a" "a" "a" "a" "a" "a" "a"]) ["A: Abstract"]
      = some "b a" ∧
    aggregate_reviews [mkReview "a" "a" "a" "a" "a" "a" "a" "a",
                       mkReview "b" "b" "b" "b" "b" "b" "b" "b"]
      ≠ aggregate_reviews [mkReview "b" "b" "b" "b" "b" "b" "b" "b",
                           mkReview "a" "a" "a" "a" "a" "a" "a" "a"] := by
  refine ⟨by decide, by decide, fun hcontra => ?_⟩
  exact absurd (congrArg (fun t => optLeafAt t ["A: Abstract"]) hcontra) (by decide)

/-- Claim C1 (amended): aggregating two canonical review trees in either
order yields trees with the same node path set (the Section Schema shape);
the trees themselves are not equal in general (see the counterexample),
because `aggregate_reviews` joins the two leaf contributions with a single
space in input order before sentence-splitting. -/
theorem aggregate_order_paths_eq (a b c d e f g h a' b' c' d' e' f' g' h' : String) :
    Option.map pathsOf
        (aggregate_reviews [mkReview a b c d e f g h, mkReview a' b' c' d' e' f' g' h'])
      = Option.map pathsOf
        (aggregate_reviews [mkReview a' b' c' d' e' f' g' h', mkReview a b c d e f g h]) := by
  rw [agg_two, agg_two]
  rfl

/-- Claim C8: the summarizer adapter returns the model output unchanged
when the black-box invocation returns, and fails with an error wrapping
the underlying cause (prefix "Summarization failed: ") exactly when the
invocation raises. -/
theorem summarize_text_ok_error (model : String → Nat → Nat → Except String String)
    (text prompt : String) (max_length min_length : Nat) :
    (∀ s, model (prompt ++ "\n" ++ text) max_length min_length = Except.ok s →
       summarize_text model text prompt max_length min_length = Except.ok s) ∧
    (∀ e, model (prompt ++ "\n" ++ text) max_length min_length = Except.error e →
       summarize_text model text prompt max_length min_length
         = Except.error ("Summarization failed: " ++ e)) := by
  constructor
  · intro s hs
    rw [summarize_text, hs]
  · intro e he
    rw [summarize_text, he]

/-- Claim C8 witness: the adapter on a concrete returning model and a
concrete raising model. -/
theorem summarize_text_ok_error_witness :
    summarize_text modelOk "t" "p" 150 30 = Except.ok "S" ∧
    summarize_text modelErr "t" "p" 150 30 = Except.error "Summarization failed: boom" :=
  ⟨(summarize_text_ok_error modelOk "t" "p" 150 30).1 "S" rfl,
   (summarize_text_ok_error modelErr "t" "p" 150 30).2 "boom" rfl⟩

theorem allStr_append {l : List Node} {v : Node} (hl : allStr l = true)
    (hv : isStr v = true) : allStr (l ++ [v]) = true := by
  induction l with
  | nil =>
    cases v with
    | str s => rfl
    | dict es => exact absurd hv (by simp [isStr])
  | cons hd tl ih =>
    cases hd with
    | str s => exact ih hl
    | dict es => exact absurd hl (by simp [allStr])

theorem allStrings_some {l : List Node} (h : allStr l = true) :
    ∃ ss, allStrings l = some ss := by
  induction l with
  | nil => exact ⟨[], rfl⟩
  | cons hd tl ih =>
    cases hd with
    | str s =>
      obtain ⟨ss, hss⟩ := ih h
      exact ⟨s :: ss, by rw [allStrings, hss]; rfl⟩
    | dict es => exact absurd h (by simp [allStr])

theorem finishLeaf_some {l : List Node} (h : allStr l = true) :
    ∃ x, finishLeaf l = some x := by
  obtain ⟨ss, hss⟩ := allStrings_some h
  exact ⟨remove_repeated_sentences (joinSpace ss), by rw [finishLeaf, hss]; rfl⟩

theorem nodeGet_all {p : String × Node → Bool} {es : List (String × Node)} {k : String}
    {v : Node} (hall : es.all p = true) (hget : nodeGet es k = some v) : p (k, v) = true := by
  induction es with
  | nil => cases hget
  | cons kv rest ih =>
    rw [List.all_cons, Bool.and_eq_true] at hall
    rw [nodeGet] at hget
    by_cases hk : kv.1 = k
    · rw [if_pos hk] at hget
      have hv : v = kv.2 := (Option.some.injEq _ _).mp hget.symm
      subst hv
      subst hk
      exact hall.1
    · rw [if_neg hk] at hget
      exact ih hall.2 hget

theorem critGet_isStr {cs : List (String × Node)} (k : String)
    (hcs : cs.all okCritEntry = true) :
    isStr ((nodeGet cs k).getD (Node.str "")) = true := by
  cases hres : nodeGet cs k with
  | none => rfl
  | some w =>
    have hw := nodeGet_all hcs hres
    rw [okCritEntry, Bool.and_eq_true] at hw
    exact hw.2

theorem StrAcc_mk {l1 l2 l3 l4 l5 l6 l7 l8 : List Node}
    (h1 : allStr l1 = true) (h2 : allStr l2 = true) (h3 : allStr l3 = true)
    (h4 : allStr l4 = true) (h5 : allStr l5 = true) (h6 : allStr l6 = true)
    (h7 : allStr l7 = true) (h8 : allStr l8 = true) :
    StrAcc ⟨l1, l2, l3, l4, l5, l6, l7, l8⟩ = true := by
  simp [StrAcc, h1, h2, h3, h4, h5, h6, h7, h8]

theorem stepB_ok {a : Agg} {kv : String × Node} (hkv : okBEntry kv = true)
    (ha : StrAcc a = true) : ∃ a2, stepB a kv = some a2 ∧ StrAcc a2 = true := by
  obtain ⟨k, v⟩ := kv
  rw [okBEntry, Bool.or_eq_true, Bool.and_eq_true, Bool.and_eq_true] at hkv
  rw [StrAcc] at ha
  simp only [Bool.and_eq_true] at ha
  obtain ⟨⟨⟨⟨⟨⟨⟨hab, hrq⟩, hss⟩, hinc⟩, hexc⟩, hde⟩, hds⟩, hres⟩ := ha
  rcases hkv with ⟨hk, hv⟩ | ⟨hk, hmatch⟩
  · have hv' : isStr v = true := hv
    simp only [Bool.or_eq_true, beq_iff_eq] at hk
    rcases hk with ((hk | hk) | hk) | hk
    · subst hk
      exact ⟨_, rfl, StrAcc_mk hab (allStr_append hrq hv') hss hinc hexc hde hds hres⟩
    · subst hk
      exact ⟨_, rfl, StrAcc_mk hab hrq (allStr_append hss hv') hinc hexc hde hds hres⟩
    · subst hk
      exact ⟨_, rfl, StrAcc_mk hab hrq hss hinc hexc (allStr_append hde hv') hds hres⟩
    · subst hk
      exact ⟨_, rfl, StrAcc_mk hab hrq hss hinc hexc hde (allStr_append hds hv') hres⟩
  · rw [beq_iff_eq] at hk
    subst hk
    cases v with
    | str s => simp at hmatch
    | dict cs =>
      have hcs : cs.all okCritEntry = true := hmatch
      exact ⟨_, rfl, StrAcc_mk hab hrq hss
        (allStr_append hinc (critGet_isStr "Inclusion" hcs))
        (allStr_append hexc (critGet_isStr "Exclusion" hcs)) hde hds hres⟩

theorem foldB_ok {bs : List (String × Node)} {a : Agg} (hbs : bs.all okBEntry = true)
    (ha : StrAcc a = true) : ∃ a2, foldB a bs = some a2 ∧ StrAcc a2 = true := by
  induction bs generalizing a with
  | nil => exact ⟨a, rfl, ha⟩
  | cons kv rest ih =>
    rw [List.all_cons, Bool.and_eq_true] at hbs
    obtain ⟨a1, hstep, ha1⟩ := stepB_ok hbs.1 ha
    obtain ⟨a2, hfold, ha2⟩ := ih hbs.2 ha1
    refine ⟨a2, ?_, ha2⟩
    rw [foldB, hstep]
    exact hfold

theorem topGet_isStr {es : List (String × Node)} {k : String}
    (hk : k = "A: Abstract" ∨ k = "D: Results") (hall : es.all okTopEntry = true) :
    isStr ((nodeGet es k).getD (Node.str "")) = true := by
  cases hres : nodeGet es k with
  | none => rfl
  | some w =>
    have hw := nodeGet_all hall hres
    rw [okTopEntry, Bool.or_eq_true, Bool.and_eq_true, Bool.and_eq_true] at hw
    rcases hw with ⟨_, hw⟩ | ⟨hbk, _⟩
    · exact hw
    · rw [beq_iff_eq] at hbk
      rcases hk with hk | hk <;> subst hk <;> simp at hbk

theorem addReview_ok {a : Agg} {r : Node} (hr : PartialReview r = true)
    (ha : StrAcc a = true) : ∃ a2, addReview a r = some a2 ∧ StrAcc a2 = true := by
  cases r with
  | str s => simp [PartialReview] at hr
  | dict es =>
    have hall : es.all okTopEntry = true := hr
    rw [StrAcc] at ha
    simp only [Bool.and_eq_true] at ha
    obtain ⟨⟨⟨⟨⟨⟨⟨hab, hrq⟩, hss⟩, hinc⟩, hexc⟩, hde⟩, hds⟩, hres⟩ := ha
    have hA : isStr ((nodeGet es "A: Abstract").getD (Node.str "")) = true :=
      topGet_isStr (Or.inl rfl) hall
    have hD : isStr ((nodeGet es "D: Results").getD (Node.str "")) = true :=
      topGet_isStr (Or.inr rfl) hall
    cases hB : nodeGet es "B: Methods" with
    | none =>
      rw [addReview, hB]
      exact ⟨_, rfl,
        StrAcc_mk (allStr_append hab hA) hrq hss hinc hexc hde hds (allStr_append hres hD)⟩
    | some v =>
      have hent := nodeGet_all hall hB
      rw [okTopEntry, Bool.or_eq_true, Bool.and_eq_true, Bool.and_eq_true] at hent
      rcases hent with ⟨hbk, _⟩ | ⟨_, hmatch⟩
      · rw [Bool.or_eq_true, beq_iff_eq, beq_iff_eq] at hbk
        rcases hbk with hbk | hbk <;> simp at hbk
      · cases v with
        | str s => simp at hmatch
        | dict bs =>
          have hbs : bs.all okBEntry = true := hmatch
          have ha1 : StrAcc (pushAbstract a ((nodeGet es "A: Abstract").getD (Node.str ""))) = true :=
            StrAcc_mk (allStr_append hab hA) hrq hss hinc hexc hde hds hres
          obtain ⟨a2, hfold, ha2⟩ := foldB_ok hbs ha1
          rw [StrAcc] at ha2
          simp only [Bool.and_eq_true] at ha2
          obtain ⟨⟨⟨⟨⟨⟨⟨kab, krq⟩, kss⟩, kinc⟩, kexc⟩, kde⟩, kds⟩, kres⟩ := ha2
          have hstep : addReview a (Node.dict es)
              = match foldB (pushAbstract a ((nodeGet es "A: Abstract").getD (Node.str ""))) bs with
                | none => none
                | some a2 => some (pushResults a2 ((nodeGet es "D: Results").getD (Node.str ""))) := by
            rw [addReview, hB]
            rfl
          rw [hstep, hfold]
          exact ⟨_, rfl, StrAcc_mk kab krq kss kinc kexc kde kds (allStr_append kres hD)⟩

theorem addAll_ok {reviews : List Node} {a : Agg} (h : reviews.all PartialReview = true)
    (ha : StrAcc a = true) : ∃ a2, addAll a reviews = some a2 ∧ StrAcc a2 = true := by
  induction reviews generalizing a with
  | nil => exact ⟨a, rfl, ha⟩
  | cons r rest ih =>
    rw [List.all_cons, Bool.and_eq_true] at h
    obtain ⟨a1, hadd, ha1⟩ := addReview_ok h.1 ha
    obtain ⟨a2, hall, ha2⟩ := ih h.2 ha1
    refine ⟨a2, ?_, ha2⟩
    rw [addAll, hadd]
    exact hall

/-- Claim C6 (amended): for every sequence of partial reviews — trees
shaped like the Section Schema with any branches or leaves missing —
`aggregate_reviews` raises no error.  The equal-tree half of the claim
fails: a missing "A: Abstract", "D: Results", "Inclusion" or "Exclusion"
leaf does contribute an empty string, but a key missing from a review
dict under "B: Methods" contributes nothing at all, which yields a
different join than an explicit empty leaf (see the counterexample). -/
theorem aggregate_partial_no_raise (reviews : List Node)
    (h : reviews.all PartialReview = true) :
    (aggregate_reviews reviews).isSome = true := by
  obtain ⟨acc, hacc, hstr⟩ := addAll_ok h (by rfl : StrAcc initAgg = true)
  rw [StrAcc] at hstr
  simp only [Bool.and_eq_true] at hstr
  obtain ⟨⟨⟨⟨⟨⟨⟨hab, hrq⟩, hss⟩, hinc⟩, hexc⟩, hde⟩, hds⟩, hres⟩ := hstr
  obtain ⟨x1, h1⟩ := finishLeaf_some hab
  obtain ⟨x2, h2⟩ := finishLeaf_some hrq
  obtain ⟨x3, h3⟩ := finishLeaf_some hss
  obtain ⟨x4, h4⟩ := finishLeaf_some hinc
  obtain ⟨x5, h5⟩ := finishLeaf_some hexc
  obtain ⟨x6, h6⟩ := finishLeaf_some hde
  obtain ⟨x7, h7⟩ := finishLeaf_some hds
  obtain ⟨x8, h8⟩ := finishLeaf_some hres
  rw [aggregate_reviews, hacc]
  dsimp only
  rw [h1, h2, h3, h4, h5, h6, h7, h8]
  rfl

/-- Claim C6 witness: aggregation of a concrete review list whose second
tree lacks the "1. Research Question" leaf succeeds. -/
theorem aggregate_partial_no_raise_witness :
    (aggregate_reviews [mkReview "" "q" "" "" "" "" "" "", reviewMissingRQ]).isSome = true :=
  aggregate_partial_no_raise [mkReview "" "q" "" "" "" "" "" "", reviewMissingRQ] (by decide)

/-- Claim C6 counterexample: a review whose "B: Methods" dict lacks
"1. Research Question" aggregates to "q" at that leaf, while the same
review with that leaf present and empty aggregates to "q " (the empty
contribution adds a trailing space to the join), so the aggregated trees
differ. -/
theorem aggregate_missing_vs_empty_cex :
    optLeafAt (aggregate_reviews [mkReview "" "q" "" "" "" "" "" "", reviewMissingRQ])
        ["B: Methods", "1. Research Question"] = some "q" ∧
    optLeafAt (aggregate_reviews [mkReview "" "q" "" "" "" "" "" "",
                                  mkReview "" "" "" "" "" "" "" ""])
        ["B: Methods", "1. Research Question"] = some "q " ∧
    aggregate_reviews [mkReview "" "q" "" "" "" "" "" "", reviewMissingRQ]
      ≠ aggregate_reviews [mkReview "" "q" "" "" "" "" "" "",
                           mkReview "" "" "" "" "" "" "" ""] := by
  refine ⟨by decide, by decide, fun hcontra => ?_⟩
  exact absurd
    (congrArg (fun t => optLeafAt t ["B: Methods", "1. Research Question"]) hcontra)
    (by decide)

/-- Claim C10: aggregating a single canonical review applies the sentence
deduplicator to every leaf, and is therefore not the identity: the leaf
"x. x" aggregates to "x". -/
theorem aggregate_singleton_dedupes :
    (∀ a b c d e f g h : String,
      aggregate_reviews [mkReview a b c d e f g h]
        = some (mkReview (remove_repeated_sentences a) (remove_repeated_sentences b)
            (remove_repeated_sentences c) (remove_repeated_sentences d)
            (remove_repeated_sentences e) (remove_repeated_sentences f)
            (remove_repeated_sentences g) (remove_repeated_sentences h))) ∧
    optLeafAt (aggregate_reviews [mkReview "x. x" "" "" "" "" "" "" ""]) ["A: Abstract"]
      = some "x" ∧
    ("x" : String) ≠ "x. x" := by
  refine ⟨?_, by decide, by decide⟩
  intro a b c d e f g h
  have step : aggregate_reviews [mkReview a b c d e f g h]
      = some (mkReview (remove_repeated_sentences (joinSpace [a]))
          (remove_repeated_sentences (joinSpace [b])) (remove_repeated_sentences (joinSpace [c]))
          (remove_repeated_sentences (joinSpace [d])) (remove_repeated_sentences (joinSpace [e]))
          (remove_repeated_sentences (joinSpace [f])) (remove_repeated_sentences (joinSpace [g]))
          (remove_repeated_sentences (joinSpace [h]))) := rfl
  simpa [joinSpace_single] using step

/-- Claim C3 (amended): aggregating two reviews whose "A: Abstract" leaves
both hold "Short abstract." yields "Short abstract. Short abstract." at
that leaf: after the space-join, splitting on ". " produces the two
distinct sentences "Short abstract" and "Short abstract." (the final
period stays attached), so the deduplicator does not collapse them. -/
theorem aggregate_identical_abstract_value :
    optLeafAt (aggregate_reviews [mkReview "Short abstract." "" "" "" "" "" "" "",
                                  mkReview "Short abstract." "" "" "" "" "" "" ""])
        ["A: Abstract"] = some "Short abstract. Short abstract." := by
  decide

/-- Claim C3 counterexample: the aggregated "A: Abstract" leaf is not the
single string "Short abstract." claimed by the spec. -/
theorem aggregate_identical_abstract_cex :
    optLeafAt (aggregate_reviews [mkReview "Short abstract." "" "" "" "" "" "" "",
                                  mkReview "Short abstract." "" "" "" "" "" "" ""])
        ["A: Abstract"] ≠ some "Short abstract." := by
  decide

/-- Claim C4: for every summarizer and any input text (a total summarizer
models the assumption that every per-leaf call returns a string),
`structured_summary` returns a tree whose node path set equals the Section
Schema path set and whose string-leaf path set equals the schema leaf
path set — a string at every leaf path, a mapping at every branch path. -/
theorem structured_summary_shape (st : String → String → String) (text : String) :
    pathsOf (structured_summary st text) = pathsOf (Node.dict sections) ∧
    leafPathsOf (structured_summary st text) = leafPathsOf (Node.dict sections) :=
  ⟨rfl, rfl⟩

/-- Claim C5: aggregating zero reviews returns the Section Schema shaped
tree with every leaf equal to the empty string. -/
theorem aggregate_nil_empty :
    aggregate_reviews [] = some (mkReview "" "" "" "" "" "" "" "") := rfl
